import Mathlib

/-
Verification of the goscripts repository (a Go "script compiler" CLI).

The source (src/main.go and the earlier variant src/unnamed/part_000) is
shallowly embedded here.  Go strings are modelled as `List Char`; Go maps
as association lists or total functions with the Go zero value `""` for a
missing key; the filesystem as an association list from paths (`List Char`)
to file contents; external processes (go build, go get, the compiled child
process) as oracle functions passed in as parameters.  Machine integers play
no role in the verified fragments.
-/

namespace Goscripts

/-! ## Character-level helpers -/

/-- Go `\w` character class: `[0-9A-Za-z_]`.  Used by the import-inference
regular expression `(\w+)\.` in `assembleSourceFile` (src/main.go:58). -/
def isWordChar (c : Char) : Bool :=
  ('a' ≤ c && c ≤ 'z') || ('A' ≤ c && c ≤ 'Z') || ('0' ≤ c && c ≤ '9') || c = '_'

/-- ASCII white space, as recognised by Go `strings.TrimSpace` on ASCII input
(`'\t'`, `'\n'`, `'\v'`, `'\f'`, `'\r'`, `' '`). -/
def isSpaceChar (c : Char) : Bool :=
  c = ' ' || c = '\t' || c = '\n' || c = '\x0b' || c = '\x0c' || c = '\r'

/-- Go `strings.TrimSpace` (restricted to the ASCII space class):
drop white space from both ends. -/
def trimSpace (cs : List Char) : List Char :=
  ((cs.dropWhile isSpaceChar).reverse.dropWhile isSpaceChar).reverse

/-! ## Line splitting

`bufio.Scanner` with the default `ScanLines` split function, and
`bufio.Reader.ReadString('\n')`, both used by the source. -/

/-- Split the input at the first `'\n'`: returns the prefix *including* the
newline together with the rest, or `none` when the input holds no newline
(for `ReadString` this is the case in which a non-nil error is returned). -/
def splitAtNL : List Char → Option (List Char × List Char)
  | [] => none
  | c :: rest =>
    if c = '\n' then some (['\n'], rest)
    else
      match splitAtNL rest with
      | none => none
      | some (l, r) => some (c :: l, r)

theorem splitAtNL_length : ∀ {l a r : List Char}, splitAtNL l = some (a, r) → r.length < l.length := by
  intro l
  induction l with
  | nil => intro a r h; simp [splitAtNL] at h
  | cons c rest ih =>
    intro a r h
    by_cases hc : c = '\n'
    · simp [splitAtNL, hc] at h
      simp [h.2.symm, List.length_cons, Nat.lt_succ_self]
    · simp only [splitAtNL, if_neg hc] at h
      cases hsub : splitAtNL rest with
      | none => rw [hsub] at h; simp at h
      | some pr =>
        rw [hsub] at h
        obtain ⟨l', r'⟩ := pr
        simp at h
        obtain ⟨h1, h2⟩ := h
        subst h2
        have := ih hsub
        simp only [List.length_cons]
        omega

/-- Function `dropCR` from `bufio.ScanLines`: drops one terminal carriage return. -/
def dropCR (l : List Char) : List Char :=
  if l.getLast? = some '\r' then l.dropLast else l

/-- The `bufio.ScanLines` token stream: each token is a line without its
terminating `'\n'` and without one trailing `'\r'`; a final line with no
terminating newline is still emitted; empty trailing data emits nothing. -/
def scanLines (input : List Char) : List (List Char) :=
  match h : splitAtNL input with
  | some (line, rest) => dropCR line.dropLast :: scanLines rest
  | none => if input = [] then [] else [dropCR input]
termination_by input.length
decreasing_by exact splitAtNL_length h

/-- Function `readSourceFile` (src/main.go:181-204 and src/unnamed/part_000:44-69):
scan the file line by line, skip every line that starts with `"#!"`, and
write each retained line back followed by `'\n'`. -/
def readSourceFile (input : List Char) : List Char :=
  (scanLines input).foldl
    (fun acc line => if ("#!".toList).isPrefixOf line then acc else acc ++ line ++ ['\n'])
    []

theorem foldl_skip_join (p : List Char → Bool) :
    ∀ (lines : List (List Char)) (acc : List Char),
      lines.foldl (fun a l => if p l then a else a ++ l ++ ['\n']) acc
        = acc ++ ((lines.filter (fun l => !(p l))).map (fun l => l ++ ['\n'])).flatten := by
  intro lines
  induction lines with
  | nil => intro acc; simp
  | cons l ls ih =>
    intro acc
    rw [List.foldl_cons]
    by_cases hp : p l
    · rw [if_pos hp, ih, List.filter_cons_of_neg (by simp [hp])]
    · rw [if_neg hp, ih, List.filter_cons_of_pos (by simp [hp])]
      simp [List.append_assoc]

/-! ## Piped passthrough execution (src/unnamed/part_000:307-333)

The parent spawns the child with a stdin pipe, runs a goroutine that reads
the terminal input with `bufio.Reader.ReadString('\n')` and forwards each
line into the pipe until a read error (end of input) or a blank line, and
meanwhile blocks on `cmd.CombinedOutput()`, printing the captured output
once the child has completed. -/

/-- The loop of the forwarding goroutine: `ReadString('\n')` yields the next line
including its newline, or an error when the input holds no further newline
(in which case the partial line is not forwarded); the loop breaks on the
error or on a line that is blank after `strings.TrimSpace`, and otherwise
writes the line to the child stdin and repeats. -/
def forwardLoop (input : List Char) : List (List Char) :=
  match h : splitAtNL input with
  | none => []
  | some (line, rest) =>
    if trimSpace line = [] then [] else line :: forwardLoop rest
termination_by input.length
decreasing_by exact splitAtNL_length h

/-- The newline-terminated lines of the input, in order; a trailing fragment
with no final newline is not a complete line. -/
def completeLines (input : List Char) : List (List Char) :=
  match h : splitAtNL input with
  | none => []
  | some (line, rest) => line :: completeLines rest
termination_by input.length
decreasing_by exact splitAtNL_length h

/-- Result of one piped-passthrough execution: what reached the child stdin
and what the parent printed. -/
structure PipedResult where
  childStdin : List Char
  printed : List Char
  deriving DecidableEq

/-- The piped-passthrough entry point (src/unnamed/part_000:307-333),
with the child process abstracted as the oracle `childB` mapping the full
contents of its stdin to its combined stdout+stderr output.  The parent
forwards lines via `forwardLoop` (each `io.WriteString` appends to the pipe),
waits for the child to complete (`cmd.CombinedOutput` returns only then),
and prints the captured output afterwards. -/
def pipedExec (childB : List Char → List Char) (input : List Char) : PipedResult :=
  let sent := (forwardLoop input).foldl (fun a l => a ++ l) []
  { childStdin := sent, printed := childB sent }

theorem foldl_append_eq_flatten :
    ∀ (ls : List (List Char)) (a : List Char),
      ls.foldl (fun a l => a ++ l) a = a ++ ls.flatten := by
  intro ls
  induction ls with
  | nil => intro a; simp
  | cons l ls ih => intro a; simp [List.foldl_cons, ih]

theorem forwardLoop_eq_takeWhile (input : List Char) :
    forwardLoop input = (completeLines input).takeWhile (fun l => !(trimSpace l).isEmpty) := by
  have H : ∀ (n : Nat) (inp : List Char), inp.length ≤ n →
      forwardLoop inp = (completeLines inp).takeWhile (fun l => !(trimSpace l).isEmpty) := by
    intro n
    induction n with
    | zero =>
      intro inp hlen
      have : inp = [] := List.length_eq_zero.mp (Nat.le_zero.mp hlen)
      subst this
      rw [forwardLoop, completeLines]
      simp [splitAtNL]
    | succ n ih =>
      intro inp hlen
      rw [forwardLoop, completeLines]
      cases h : splitAtNL inp with
      | none => simp
      | some pr =>
        obtain ⟨line, rest⟩ := pr
        by_cases hb : trimSpace line = []
        · simp [hb, List.takeWhile_cons]
        · simp only [if_neg hb, List.takeWhile_cons]
          have hne : (trimSpace line).isEmpty = false := by
            cases hts : trimSpace line with
            | nil => exact absurd hts hb
            | cons a as => simp
          simp only [hne, Bool.not_false, if_pos]
          have hrest : rest.length ≤ n := by
            have := splitAtNL_length h
            omega
          rw [ih rest hrest]
  exact H input.length input le_rfl

/-- C9: in piped-passthrough mode the parent forwards the terminal input to
the child stdin one line at a time, stopping exactly when the input runs out
of complete lines or when a blank (whitespace-only) line is read — the
forwarded stream is the longest prefix of non-blank complete lines — and the
printed output is the combined output of the child of the entire run, captured and
printed only after the child completes (it is a function of the full forwarded
stream, not an incremental echo). -/
theorem c9_piped_passthrough (childB : List Char → List Char) (input : List Char) :
    (pipedExec childB input).childStdin
        = ((completeLines input).takeWhile (fun l => !(trimSpace l).isEmpty)).flatten
      ∧ (pipedExec childB input).printed = childB (pipedExec childB input).childStdin := by
  constructor
  · show (forwardLoop input).foldl (fun a l => a ++ l) []
        = ((completeLines input).takeWhile (fun l => !(trimSpace l).isEmpty)).flatten
    rw [foldl_append_eq_flatten, forwardLoop_eq_takeWhile]
    simp
  · rfl

/-! ## Import Resolver (src/main.go:38-89, 50-56, 58-79)

`assembleSourceFile` merges the persisted user alias table over the built-in
`util.ImportsMap`, scans the code fragment with the regular expression
`(\w+)\.` for qualified references, formats one import declaration per
resolvable identifier, and deduplicates the declaration strings while
preserving first-seen order.  Alias tables are modelled as total functions
`String → String` with the Go zero value `""` for a missing key; the user
table, ranged over by a Go `for … range` loop, as an association list. -/

/-- The scan of `regexp.MustCompile((\w+)\.).FindAllStringSubmatch(code, -1)`
restricted to the captured group: a maximal nonempty run of word characters
immediately followed by `'.'` is a match (leftmost, non-overlapping, the dot
consumed); the capture list is returned in text order.  `run` is the pending
word run read so far (reversed nowhere — appended at the tail). -/
def scanIdentsGo (run : List Char) : List Char → List (List Char)
  | [] => []
  | c :: rest =>
    if isWordChar c then scanIdentsGo (run ++ [c]) rest
    else if c = '.' ∧ run ≠ [] then run :: scanIdentsGo [] rest
    else scanIdentsGo [] rest

/-- All captured identifiers of the fragment, in text order. -/
def scanIdents (code : String) : List String :=
  (scanIdentsGo [] code.toList).map (fun cs => String.mk cs)

/-- Trailing-separator stripping step of `filepath.Base`. -/
def stripTrailingSlashes (cs : List Char) : List Char :=
  ((cs.reverse).dropWhile (fun c => c = '/')).reverse

/-- The characters after the last `'/'` (the whole list when there is none). -/
def afterLastSlash (cs : List Char) : List Char :=
  ((cs.reverse).takeWhile (fun c => c ≠ '/')).reverse

/-- Function `filepath.Base` (unix rules) on a character list: `"."` for the empty
path, `"/"` when the path consists only of separators, otherwise everything
after the last separator once trailing separators are removed. -/
def goBaseCore (cs : List Char) : List Char :=
  if cs = [] then ['.']
  else if stripTrailingSlashes cs = [] then ['/']
  else afterLastSlash (stripTrailingSlashes cs)

/-- Function `filepath.Base` on strings. -/
def goBase (path : String) : String :=
  String.mk (goBaseCore path.toList)

/-- Declaration formatting of src/main.go:65-72: when the base name of
the import path differs from the identifier the identifier is prepended
as an explicit alias, otherwise the quoted path stands alone. -/
def fmtDecl (k v : String) : String :=
  if goBase v ≠ k then k ++ " \"" ++ v ++ "\"" else "\"" ++ v ++ "\""

/-- The import-collection loop of src/main.go:59-79: for every captured
identifier, look it up in the table; when the value is non-empty format the
declaration and append it unless it is already present. -/
def formattedImports (table : String → String) (code : String) : List String :=
  (scanIdents code).foldl
    (fun acc k =>
      let v := table k
      if v ≠ "" then
        (if fmtDecl k v ∈ acc then acc else acc ++ [fmtDecl k v])
      else acc)
    []

/-- Go `m[k] = v` on a total-function map model. -/
def goMapInsert (m : String → String) (k v : String) : String → String :=
  fun x => if x = k then v else m x

/-- The merge loop of src/main.go:52-56: every entry of the user table is
inserted into the built-in table, overwriting on key collision. -/
def mergeImports (base : String → String) (user : List (String × String)) : String → String :=
  user.foldl (fun m kv => goMapInsert m kv.1 kv.2) base

/-- The declarations that the scan resolves, in text order, duplicates kept:
one formatted declaration per captured identifier with a non-empty table
entry. -/
def resolvedDecls (table : String → String) (code : String) : List String :=
  (scanIdents code).filterMap
    (fun k => if table k ≠ "" then some (fmtDecl k (table k)) else none)

/-- Spec-side deduplication: keep the first occurrence of every element,
drop all later occurrences. -/
def dedupFirstSpec : List String → List String
  | [] => []
  | x :: xs => x :: dedupFirstSpec (xs.filter (fun y => y ≠ x))
termination_by l => l.length
decreasing_by
  simp only [List.length_cons]
  exact Nat.lt_succ_of_le (List.length_filter_le _ _)

theorem dedupFirstSpec_nil : dedupFirstSpec [] = [] := by
  rw [dedupFirstSpec]

theorem dedupFirstSpec_cons (x : String) (xs : List String) :
    dedupFirstSpec (x :: xs) = x :: dedupFirstSpec (xs.filter (fun y => y ≠ x)) := by
  rw [dedupFirstSpec]

theorem mem_dedupFirstSpec (a : String) : ∀ (l : List String), a ∈ dedupFirstSpec l ↔ a ∈ l := by
  have H : ∀ (n : Nat) (l : List String), l.length ≤ n → (a ∈ dedupFirstSpec l ↔ a ∈ l) := by
    intro n
    induction n with
    | zero =>
      intro l hlen
      have : l = [] := List.length_eq_zero.mp (Nat.le_zero.mp hlen)
      subst this
      simp [dedupFirstSpec_nil]
    | succ n ih =>
      intro l hlen
      cases l with
      | nil => simp [dedupFirstSpec_nil]
      | cons x xs =>
        rw [dedupFirstSpec_cons]
        by_cases hax : a = x
        · simp [hax]
        · have hlen' : (xs.filter (fun y => y ≠ x)).length ≤ n := by
            have := List.length_filter_le (fun y => decide (y ≠ x)) xs
            simp only [List.length_cons] at hlen
            omega
          simp only [List.mem_cons, hax, false_or]
          rw [ih _ hlen']
          simp [List.mem_filter, hax]
  intro l
  exact H l.length l le_rfl

theorem nodup_dedupFirstSpec : ∀ (l : List String), (dedupFirstSpec l).Nodup := by
  have H : ∀ (n : Nat) (l : List String), l.length ≤ n → (dedupFirstSpec l).Nodup := by
    intro n
    induction n with
    | zero =>
      intro l hlen
      have : l = [] := List.length_eq_zero.mp (Nat.le_zero.mp hlen)
      subst this
      simp [dedupFirstSpec_nil]
    | succ n ih =>
      intro l hlen
      cases l with
      | nil => simp [dedupFirstSpec_nil]
      | cons x xs =>
        rw [dedupFirstSpec_cons]
        have hlen' : (xs.filter (fun y => y ≠ x)).length ≤ n := by
          have := List.length_filter_le (fun y => decide (y ≠ x)) xs
          simp only [List.length_cons] at hlen
          omega
        refine List.nodup_cons.mpr ⟨?_, ih _ hlen'⟩
        intro hx
        have := (mem_dedupFirstSpec x _).mp hx
        simp [List.mem_filter] at this
  intro l
  exact H l.length l le_rfl

theorem dedup_foldl_eq : ∀ (l : List String) (acc : List String),
    l.foldl (fun acc d => if d ∈ acc then acc else acc ++ [d]) acc
      = acc ++ dedupFirstSpec (l.filter (fun d => d ∉ acc)) := by
  intro l
  induction l with
  | nil => intro acc; simp [dedupFirstSpec_nil]
  | cons d l ih =>
    intro acc
    rw [List.foldl_cons]
    by_cases hd : d ∈ acc
    · rw [if_pos hd, ih acc]
      have : (d :: l).filter (fun x => x ∉ acc) = l.filter (fun x => x ∉ acc) := by
        rw [List.filter_cons]
        simp [hd]
      rw [this]
    · rw [if_neg hd, ih (acc ++ [d])]
      have h1 : (d :: l).filter (fun x => x ∉ acc) = d :: l.filter (fun x => x ∉ acc) := by
        rw [List.filter_cons]
        simp [hd]
      rw [h1, dedupFirstSpec_cons]
      have h2 : (l.filter (fun x => x ∉ acc)).filter (fun y => y ≠ d)
          = l.filter (fun x => x ∉ acc ++ [d]) := by
        rw [List.filter_filter]
        apply List.filter_congr
        intro x _
        simp [List.mem_append, not_or, and_comm]
      rw [h2]
      simp [List.append_assoc]

theorem formattedImports_eq_dedup (table : String → String) (code : String) :
    formattedImports table code = dedupFirstSpec (resolvedDecls table code) := by
  have step : ∀ (ks : List String) (acc : List String),
      ks.foldl (fun acc k =>
        let v := table k
        if v ≠ "" then
          (if fmtDecl k v ∈ acc then acc else acc ++ [fmtDecl k v])
        else acc) acc
      = (ks.filterMap (fun k => if table k ≠ "" then some (fmtDecl k (table k)) else none)).foldl
          (fun acc d => if d ∈ acc then acc else acc ++ [d]) acc := by
    intro ks
    induction ks with
    | nil => intro acc; simp
    | cons k ks ihk =>
      intro acc
      rw [List.foldl_cons, List.filterMap_cons]
      by_cases hv : table k ≠ ""
      · simp only [if_pos hv, ihk, List.foldl_cons]
      · simp only [if_neg hv, ihk]
  rw [formattedImports, step, dedup_foldl_eq, resolvedDecls]
  simp

theorem mem_formattedImports (table : String → String) (code : String) (k : String)
    (hk : k ∈ scanIdents code) (hv : table k ≠ "") :
    fmtDecl k (table k) ∈ formattedImports table code := by
  rw [formattedImports_eq_dedup, mem_dedupFirstSpec, resolvedDecls, List.mem_filterMap]
  exact ⟨k, hk, by simp [hv]⟩

/-- C5: the resolved import list holds exactly one declaration per distinct
resolvable captured identifier — a fragment referencing the same qualified
identifier several times yields a single declaration — and the declarations
stand in first-seen order: the list equals the first-occurrence
deduplication of the per-occurrence declaration stream. -/
theorem c5_imports_dedup_first_seen_order (table : String → String) (code : String) :
    formattedImports table code = dedupFirstSpec (resolvedDecls table code)
    ∧ (formattedImports table code).Nodup
    ∧ (∀ k, k ∈ scanIdents code → table k ≠ "" →
        (formattedImports table code).count (fmtDecl k (table k)) = 1) := by
  refine ⟨formattedImports_eq_dedup table code, ?_, ?_⟩
  · rw [formattedImports_eq_dedup]
    exact nodup_dedupFirstSpec _
  · intro k hk hv
    have hmem := mem_formattedImports table code k hk hv
    have hnd : (formattedImports table code).Nodup := by
      rw [formattedImports_eq_dedup]
      exact nodup_dedupFirstSpec _
    exact List.count_eq_one_of_mem hnd hmem

theorem c5_witness :
    (formattedImports (fun k => if k = "re" then "regexp" else "")
        "re.MatchString(re.QuoteMeta(x))").count
      (fmtDecl "re" "regexp") = 1 := by
  have h := (c5_imports_dedup_first_seen_order
      (fun k => if k = "re" then "regexp" else "") "re.MatchString(re.QuoteMeta(x))").2.2
      "re" (by decide) (by decide)
  simpa using h

theorem merge_lookup_not_mem (user : List (String × String)) :
    ∀ (m : String → String) (k : String), k ∉ user.map Prod.fst → mergeImports m user k = m k := by
  induction user with
  | nil => intro m k _; rfl
  | cons kv rest ih =>
    intro m k hk
    simp only [List.map_cons, List.mem_cons, not_or] at hk
    show mergeImports (goMapInsert m kv.1 kv.2) rest k = m k
    rw [ih _ k hk.2, goMapInsert, if_neg hk.1]

/-- C6: for an identifier key present in both the built-in base table and the
persisted user table, resolution uses the import path of the user table — the
merged lookup yields the user value whatever the base holds, and the
declaration emitted for that key is formatted from the user path. -/
theorem c6_user_table_precedence (base : String → String) (user : List (String × String))
    (k v : String) (hnodup : (user.map Prod.fst).Nodup) (hmem : (k, v) ∈ user) :
    mergeImports base user k = v
    ∧ (∀ code, k ∈ scanIdents code → v ≠ "" →
        fmtDecl k v ∈ formattedImports (mergeImports base user) code) := by
  have hlook : mergeImports base user k = v := by
    induction user generalizing base with
    | nil => cases hmem
    | cons kv rest ih =>
      rcases List.mem_cons.mp hmem with heq | hrest
      · subst heq
        have hk : k ∉ rest.map Prod.fst := by
          simp only [List.map_cons] at hnodup
          exact (List.nodup_cons.mp hnodup).1
        show mergeImports (goMapInsert base k v) rest k = v
        rw [merge_lookup_not_mem rest _ k hk, goMapInsert, if_pos rfl]
      · have hnd : (rest.map Prod.fst).Nodup := by
          simp only [List.map_cons] at hnodup
          exact (List.nodup_cons.mp hnodup).2
        exact ih (goMapInsert base kv.1 kv.2) hnd hrest
  refine ⟨hlook, ?_⟩
  intro code hk hv
  have := mem_formattedImports (mergeImports base user) code k hk (by rw [hlook]; exact hv)
  rwa [hlook] at this

theorem c6_witness :
    mergeImports (fun k => if k = "script" then "github.com/bitfield/script" else "")
        [("script", "example.com/fork/script")] "script" = "example.com/fork/script"
    ∧ fmtDecl "script" "example.com/fork/script"
        ∈ formattedImports
            (mergeImports (fun k => if k = "script" then "github.com/bitfield/script" else "")
              [("script", "example.com/fork/script")])
            "script.Echo(v).Stdout()" := by
  have h := c6_user_table_precedence
      (fun k => if k = "script" then "github.com/bitfield/script" else "")
      [("script", "example.com/fork/script")] "script" "example.com/fork/script"
      (by decide) (by decide)
  exact ⟨h.1, h.2 "script.Echo(v).Stdout()" (by decide) (by decide)⟩

/-! ## C7: declaration form against the trailing path segment of the spec

The code decides between the plain and the aliased declaration with
`filepath.Base(v) != k` (src/main.go:68).  The spec speaks of the trailing
path segment of the import path.  `segsAux`/`specTrailingSegment` spell out
the wording of the spec independently of the code — the last nonempty `'/'`-separated
component — and the refinement below connects the two. -/

/-- Components of a character list split on `'/'` (empty components kept). -/
def segsAux : List Char → List (List Char)
  | [] => [[]]
  | c :: rest =>
    if c = '/' then [] :: segsAux rest
    else
      match segsAux rest with
      | [] => [[c]]
      | s :: ss => (c :: s) :: ss

/-- The wording of the spec for C7, stated independently of `filepath.Base`: the
trailing path segment is the last nonempty slash-separated component of
the import path (none when the path has no such component). -/
def specTrailingSegment (path : String) : Option String :=
  (((segsAux path.toList).filter (fun s => !s.isEmpty)).getLast?).map (fun cs => String.mk cs)

theorem segsAux_ne_nil : ∀ (l : List Char), segsAux l ≠ [] := by
  intro l
  induction l with
  | nil => simp [segsAux]
  | cons c rest ih =>
    by_cases hc : c = '/'
    · simp [segsAux, hc]
    · simp only [segsAux, if_neg hc]
      cases h : segsAux rest with
      | nil => simp
      | cons s ss => simp

theorem takeWhile_append_eq (p : Char → Bool) :
    ∀ (a b : List Char),
      (a ++ b).takeWhile p
        = a.takeWhile p ++ (if a.takeWhile p = a then b.takeWhile p else []) := by
  intro a
  induction a with
  | nil => intro b; simp
  | cons c a ih =>
    intro b
    by_cases hc : p c
    · simp only [List.cons_append, List.takeWhile_cons, hc, if_pos, List.cons_append]
      rw [ih b]
      by_cases h : a.takeWhile p = a
      · simp [h]
      · have : ¬(c :: a.takeWhile p = c :: a) := by simp [h]
        simp [h, this]
    · simp only [List.cons_append, List.takeWhile_cons, hc]
      simp

theorem no_slash_segsAux : ∀ (l : List Char), '/' ∉ l → segsAux l = [l] := by
  intro l
  induction l with
  | nil => simp [segsAux]
  | cons c rest ih =>
    intro hmem
    simp only [List.mem_cons, not_or] at hmem
    have hc : ¬(c = '/') := fun h => hmem.1 h.symm
    simp only [segsAux, if_neg hc]
    rw [ih hmem.2]

theorem segsAux_singleton : ∀ (l : List Char) (s : List Char), segsAux l = [s] → '/' ∉ l ∧ s = l := by
  intro l
  induction l with
  | nil =>
    intro s h
    simp [segsAux] at h
    simp [h]
  | cons c rest ih =>
    intro s h
    by_cases hc : c = '/'
    · simp only [segsAux, if_pos hc] at h
      have : segsAux rest = [] := by
        cases hr : segsAux rest with
        | nil => rfl
        | cons t ts => rw [hr] at h; simp at h
      exact absurd this (segsAux_ne_nil rest)
    · simp only [segsAux, if_neg hc] at h
      cases hr : segsAux rest with
      | nil => exact absurd hr (segsAux_ne_nil rest)
      | cons t ts =>
        rw [hr] at h
        simp at h
        obtain ⟨h1, h2⟩ := h
        have hts : ts = [] := h2
        have := ih t (by rw [hr, hts])
        refine ⟨?_, ?_⟩
        · simp only [List.mem_cons, not_or]
          exact ⟨fun he => hc he.symm, this.1⟩
        · rw [← h1, this.2]

theorem segsAux_getLast?_eq_afterLastSlash :
    ∀ (l : List Char), (segsAux l).getLast? = some (afterLastSlash l) := by
  intro l
  induction l with
  | nil => simp [segsAux, afterLastSlash]
  | cons c rest ih =>
    by_cases hc : c = '/'
    · subst hc
      have hA : afterLastSlash ('/' :: rest) = afterLastSlash rest := by
        simp only [afterLastSlash, List.reverse_cons]
        rw [takeWhile_append_eq]
        have : List.takeWhile (fun c => decide (c ≠ '/')) ['/'] = [] := by decide
        rw [this]
        simp
      rw [hA]
      simp only [segsAux, if_pos rfl]
      rw [← ih]
      cases hr : segsAux rest with
      | nil => exact absurd hr (segsAux_ne_nil rest)
      | cons t ts => simp [List.getLast?]
    · simp only [segsAux, if_neg hc]
      cases hr : segsAux rest with
      | nil => exact absurd hr (segsAux_ne_nil rest)
      | cons t ts =>
        cases hts : ts with
        | nil =>
          rw [hts] at hr
          have hsing := segsAux_singleton rest t hr
          have htw : List.takeWhile (fun x => decide (x ≠ '/')) rest.reverse = rest.reverse := by
            rw [List.takeWhile_eq_self_iff]
            intro x hx
            have : x ∈ rest := List.mem_reverse.mp hx
            have : x ≠ '/' := fun he => hsing.1 (he ▸ this)
            simpa using this
          have hA : afterLastSlash (c :: rest) = c :: rest := by
            simp only [afterLastSlash, List.reverse_cons]
            rw [takeWhile_append_eq, htw, if_pos rfl]
            have : List.takeWhile (fun x => decide (x ≠ '/')) [c] = [c] := by
              rw [List.takeWhile_eq_self_iff]
              intro x hx
              simp at hx
              subst hx
              simpa using hc
            rw [this]
            simp
          rw [hA]
          simp [hsing.2]
        | cons u us =>
          rw [hts] at hr
          have hslash : '/' ∈ rest := by
            by_contra hno
            rw [no_slash_segsAux rest hno] at hr
            simp at hr
          have htwne : List.takeWhile (fun x => decide (x ≠ '/')) rest.reverse ≠ rest.reverse := by
            intro habs
            rw [List.takeWhile_eq_self_iff] at habs
            have := habs '/' (List.mem_reverse.mpr hslash)
            simp at this
          have hA : afterLastSlash (c :: rest) = afterLastSlash rest := by
            simp only [afterLastSlash, List.reverse_cons]
            rw [takeWhile_append_eq, if_neg htwne]
            simp
          rw [hA, ← ih, hr]
          simp [List.getLast?]

theorem segsAux_append_slash : ∀ (xs : List Char), segsAux (xs ++ ['/']) = segsAux xs ++ [[]] := by
  intro xs
  induction xs with
  | nil => simp [segsAux]
  | cons c rest ih =>
    simp only [List.cons_append, segsAux, List.append_eq]
    by_cases hc : c = '/'
    · simp [hc, ih]
    · simp only [if_neg hc]
      cases hr : segsAux rest with
      | nil => exact absurd hr (segsAux_ne_nil rest)
      | cons t ts =>
        rw [ih, hr]
        simp

theorem getLast?_filter_of_last (p : List Char → Bool) :
    ∀ (l : List (List Char)) (a : List Char),
      l.getLast? = some a → p a = true → (l.filter p).getLast? = some a := by
  intro l
  induction l with
  | nil => intro a h; simp at h
  | cons x xs ih =>
    intro a h hp
    cases xs with
    | nil =>
      simp at h
      subst h
      simp [List.filter_cons, hp]
    | cons y ys =>
      rw [List.getLast?_cons_cons] at h
      have hne : (y :: ys).filter p ≠ [] := by
        intro habs
        have := ih a h hp
        rw [habs] at this
        simp at this
      rw [List.filter_cons]
      by_cases hx : p x
      · simp only [hx, if_pos]
        cases hf : (y :: ys).filter p with
        | nil => exact absurd hf hne
        | cons z zs =>
          rw [List.getLast?_cons_cons, ← hf]
          exact ih a h hp
      · simp only [hx]
        simp only [Bool.false_eq_true, if_false]
        exact ih a h hp

theorem stripTrailingSlashes_append_slash (xs : List Char) :
    stripTrailingSlashes (xs ++ ['/']) = stripTrailingSlashes xs := by
  simp [stripTrailingSlashes, List.dropWhile_cons]

theorem stripTrailingSlashes_append_ne (xs : List Char) (c : Char) (hc : ¬c = '/') :
    stripTrailingSlashes (xs ++ [c]) = xs ++ [c] := by
  simp [stripTrailingSlashes, List.dropWhile_cons, hc]

theorem goBaseCore_eq_of_trailing :
    ∀ (cs seg : List Char),
      ((segsAux cs).filter (fun s => !s.isEmpty)).getLast? = some seg → goBaseCore cs = seg := by
  intro cs
  induction cs using List.reverseRecOn with
  | nil => intro seg h; simp [segsAux] at h
  | append_singleton xs c ih =>
    intro seg h
    by_cases hc : c = '/'
    · subst hc
      rw [segsAux_append_slash, List.filter_append] at h
      have hfe : List.filter (fun s => !s.isEmpty) [([] : List Char)] = [] := by decide
      rw [hfe, List.append_nil] at h
      have hxs : goBaseCore xs = seg := ih seg h
      by_cases hxs0 : xs = []
      · subst hxs0
        simp [segsAux] at h
      · rw [← hxs]
        have hne2 : ¬(xs ++ ['/'] = []) := by simp
        rw [goBaseCore, if_neg hne2, goBaseCore, if_neg hxs0,
          stripTrailingSlashes_append_slash]
    · have hlast : (segsAux (xs ++ [c])).getLast? = some (afterLastSlash (xs ++ [c])) :=
        segsAux_getLast?_eq_afterLastSlash (xs ++ [c])
      have hA : afterLastSlash (xs ++ [c])
          = (List.takeWhile (fun x => decide (x ≠ '/')) xs.reverse).reverse ++ [c] := by
        have h1 : (xs ++ [c]).reverse = c :: xs.reverse := by simp
        rw [afterLastSlash, h1, List.takeWhile_cons]
        have h2 : (decide (c ≠ '/')) = true := by simp [hc]
        rw [h2]
        simp
      have hnonempty : (afterLastSlash (xs ++ [c])).isEmpty = false := by
        rw [hA]
        simp
      have hfl := getLast?_filter_of_last (fun s => !s.isEmpty) (segsAux (xs ++ [c]))
        (afterLastSlash (xs ++ [c])) hlast (by simp [hnonempty])
      rw [hfl] at h
      have hseg : seg = afterLastSlash (xs ++ [c]) := by
        injection h with h
        exact h.symm
      rw [hseg, goBaseCore, if_neg (by simp), stripTrailingSlashes_append_ne xs c hc,
        if_neg (by simp)]

/-- C7: for an identifier `k` with alias-table entry `path`, the formatted
declaration imports the quoted path alone when the trailing segment of the
path (its last nonempty slash-separated component) equals `k`, and otherwise
is the aliased form, the identifier followed by the quoted path. -/
theorem c7_decl_plain_or_aliased (k path seg : String)
    (hseg : specTrailingSegment path = some seg) :
    (seg = k → fmtDecl k path = "\"" ++ path ++ "\"")
    ∧ (seg ≠ k → fmtDecl k path = k ++ " \"" ++ path ++ "\"") := by
  have hbase : goBase path = seg := by
    rw [specTrailingSegment, Option.map_eq_some'] at hseg
    obtain ⟨cs, hcs, hmk⟩ := hseg
    rw [goBase, goBaseCore_eq_of_trailing path.toList cs hcs, hmk]
  constructor
  · intro h
    rw [fmtDecl, if_neg (not_not_intro (hbase.trans h))]
  · intro h
    rw [fmtDecl, if_pos (by rw [hbase]; exact h)]

theorem c7_witness :
    fmtDecl "script" "github.com/bitfield/script" = "\"github.com/bitfield/script\""
    ∧ fmtDecl "sc" "github.com/bitfield/script" = "sc \"github.com/bitfield/script\"" := by
  constructor
  · exact (c7_decl_plain_or_aliased "script" "github.com/bitfield/script" "script"
      (by decide)).1 rfl
  · exact (c7_decl_plain_or_aliased "sc" "github.com/bitfield/script" "script"
      (by decide)).2 (by decide)

/-! ## Command Store (src/main.go:280-314, 414-425, 630-709)

The project filesystem is modelled as an association list from paths
(character lists, relative to the project directory) to file contents.
A write overwrites, a remove deletes every entry at the path (directories
hold each name once), a rename of a missing source is the level-1 `check`
report-and-continue of `deleteCommand`. -/

abbrev FS := List (List Char × String)

def fsLookup : FS → List Char → Option String
  | [], _ => none
  | (q, c) :: rest, p => if q = p then some c else fsLookup rest p

def fsRemove : FS → List Char → FS
  | [], _ => []
  | (q, c) :: rest, p => if q = p then fsRemove rest p else (q, c) :: fsRemove rest p

def fsWrite (fs : FS) (p : List Char) (c : String) : FS :=
  (p, c) :: fsRemove fs p

def fsRename (fs : FS) (po pn : List Char) : FS :=
  match fsLookup fs po with
  | some c => fsWrite (fsRemove fs po) pn c
  | none => fs

def srcPath (name : List Char) : List Char := "src/".toList ++ name ++ ".go".toList

def srcPathSansExt (name : List Char) : List Char := "src/".toList ++ name

def binPath (name : List Char) : List Char := "bin/".toList ++ name

/-- Function `deleteCommand` (src/main.go:295-304): soft delete — rename the source
file to strip the `.go` extension, remove the binary (`go mod tidy` touches
neither directory). -/
def deleteCommand (fs : FS) (name : List Char) : FS :=
  fsRemove (fsRename fs (srcPath name) (srcPathSansExt name)) (binPath name)

/-- Function `restoreCommand` (src/main.go:307-314): rename the extensionless source
back to `<name>.go` and recompile.  `compile` is the external `go build`
oracle from source content to binary content (`none` = compile failure, in
which case `compileBinary` reports and no binary appears).  The result is
`none` when the soft-deleted source does not exist (the level-2 `check`
exits the process). -/
def restoreCommand (compile : String → Option String) (fs : FS) (name : List Char) :
    Option FS :=
  match fsLookup fs (srcPathSansExt name) with
  | none => none
  | some src =>
    let fs1 := fsRename fs (srcPathSansExt name) (srcPath name)
    match compile src with
    | some bin => some (fsWrite fs1 (binPath name) bin)
    | none => some fs1

/-- The `--export` branch of `main` (src/main.go:701-709): read the named
source (`readSourceFile` strips shebang lines; a missing file is a level-2
`check` exit, modelled as `none`), print the shebang line and then the
source to stdout, and perform the delete transition. -/
def exportCommand (argv0 : String) (fs : FS) (name : List Char) :
    Option (List Char × FS) :=
  match fsLookup fs (srcPath name) with
  | none => none
  | some content =>
    some ((("#!/usr/bin/env -S " ++ argv0 ++ "\n").toList) ++ readSourceFile content.toList,
      deleteCommand fs name)

def fsKeys (fs : FS) : List (List Char) := fs.map Prod.fst

/-- The names in the src directory (`getSourceList`, src/main.go:280-292;
the lexicographic sort there only permutes the listing and is dropped
from the model, which is inspected through membership only). -/
def srcEntries (fs : FS) : List (List Char) :=
  (fsKeys fs).filterMap
    (fun p => if p.take 4 = "src/".toList then some (p.drop 4) else none)

/-- The `--list` loop (src/main.go:630-640): an entry carrying the `.go`
extension is displayed with the extension stripped (an Active, runnable
command, `requiresRestore = false`); any other entry is displayed with the
`(requires --restore)` marker (`requiresRestore = true`). -/
def listingRows (fs : FS) : List (List Char × Bool) :=
  (srcEntries fs).map (fun e =>
    if (".go".toList).isSuffixOf e then (e.take (e.length - 3), false) else (e, true))

theorem fsLookup_fsRemove : ∀ (fs : FS) (p q : List Char),
    fsLookup (fsRemove fs p) q = if q = p then none else fsLookup fs q := by
  intro fs
  induction fs with
  | nil => intro p q; simp [fsRemove, fsLookup]
  | cons e rest ih =>
    intro p q
    obtain ⟨r, c⟩ := e
    by_cases hr : r = p
    · rw [fsRemove]
      simp only [if_pos hr, ih]
      by_cases hq : q = p
      · simp [hq]
      · have : ¬(r = q) := fun h => hq (h ▸ hr)
        simp [hq, fsLookup, this]
    · rw [fsRemove]
      simp only [if_neg hr, fsLookup]
      by_cases hrq : r = q
      · rw [if_pos hrq]
        have hqp : ¬(q = p) := fun h => hr (hrq.trans h)
        rw [if_neg hqp]
        simp [fsLookup, hrq]
      · simp only [if_neg hrq, ih]

theorem fsLookup_fsWrite (fs : FS) (p q : List Char) (c : String) :
    fsLookup (fsWrite fs p c) q = if q = p then some c else fsLookup fs q := by
  rw [fsWrite, fsLookup]
  by_cases hq : q = p
  · simp [hq]
  · have hpq : ¬(p = q) := fun h => hq h.symm
    rw [if_neg hpq, if_neg hq, fsLookup_fsRemove, if_neg hq]

theorem mem_fsKeys_fsRemove : ∀ (fs : FS) (p q : List Char),
    (q ∈ fsKeys (fsRemove fs p)) ↔ (q ∈ fsKeys fs ∧ q ≠ p) := by
  intro fs
  induction fs with
  | nil => intro p q; simp [fsRemove, fsKeys]
  | cons e rest ih =>
    intro p q
    obtain ⟨r, c⟩ := e
    by_cases hr : r = p
    · rw [fsRemove]
      simp only [if_pos hr, ih]
      subst hr
      simp only [fsKeys, List.map_cons, List.mem_cons]
      constructor
      · intro ⟨h1, h2⟩; exact ⟨Or.inr h1, h2⟩
      · rintro ⟨h1 | h1, h2⟩
        · exact absurd h1 h2
        · exact ⟨h1, h2⟩
    · rw [fsRemove]
      simp only [if_neg hr, fsKeys, List.map_cons, List.mem_cons]
      show q = r ∨ q ∈ fsKeys (fsRemove rest p) ↔ _
      rw [ih]
      constructor
      · rintro (h | ⟨h1, h2⟩)
        · exact ⟨Or.inl h, fun he => hr (h ▸ he ▸ rfl)⟩
        · exact ⟨Or.inr h1, h2⟩
      · rintro ⟨h1 | h1, h2⟩
        · exact Or.inl h1
        · exact Or.inr ⟨h1, h2⟩

theorem mem_fsKeys_fsWrite (fs : FS) (p q : List Char) (c : String) :
    (q ∈ fsKeys (fsWrite fs p c)) ↔ (q = p ∨ (q ∈ fsKeys fs ∧ q ≠ p)) := by
  rw [fsWrite]
  simp only [fsKeys, List.map_cons, List.mem_cons]
  show q = p ∨ q ∈ fsKeys (fsRemove fs p) ↔ _
  rw [mem_fsKeys_fsRemove]
  exact Iff.rfl

theorem mem_srcEntries (fs : FS) (e : List Char) :
    e ∈ srcEntries fs ↔ ("src/".toList ++ e) ∈ fsKeys fs := by
  rw [srcEntries, List.mem_filterMap]
  constructor
  · rintro ⟨p, hp, hpe⟩
    by_cases h4 : p.take 4 = "src/".toList
    · rw [if_pos h4] at hpe
      injection hpe with hpe
      have : p.take 4 ++ p.drop 4 = p := List.take_append_drop 4 p
      rw [h4, hpe] at this
      rwa [this]
    · rw [if_neg h4] at hpe
      cases hpe
  · intro h
    refine ⟨"src/".toList ++ e, h, ?_⟩
    have ht : ("src/".toList ++ e).take 4 = "src/".toList := by
      have : ("src/".toList).length = 4 := rfl
      rw [← this, List.take_left]
    have hd : ("src/".toList ++ e).drop 4 = e := by
      have : ("src/".toList).length = 4 := rfl
      rw [← this, List.drop_left]
    rw [if_pos ht, hd]

theorem srcPath_eq_sansExt_append (name : List Char) :
    srcPath name = srcPathSansExt name ++ ".go".toList := by
  simp [srcPath, srcPathSansExt, List.append_assoc]

theorem srcPath_ne_sansExt (name : List Char) : srcPath name ≠ srcPathSansExt name := by
  intro h
  have := congrArg List.length h
  have h1 : ("src/".toList).length = 4 := rfl
  have h2 : (".go".toList).length = 3 := rfl
  simp only [srcPath, srcPathSansExt, List.length_append, h1, h2] at this
  omega

theorem binPath_ne_srcPath (n m : List Char) : binPath n ≠ srcPath m := by
  intro h
  have hb : binPath n = 'b' :: ("in/".toList ++ n) := rfl
  have hs : srcPath m = 's' :: ("rc/".toList ++ m ++ ".go".toList) := rfl
  rw [hb, hs] at h
  injection h with h1 h2
  exact absurd h1 (by decide)

theorem binPath_ne_sansExt (n m : List Char) : binPath n ≠ srcPathSansExt m := by
  intro h
  have hb : binPath n = 'b' :: ("in/".toList ++ n) := rfl
  have hs : srcPathSansExt m = 's' :: ("rc/".toList ++ m) := rfl
  rw [hb, hs] at h
  injection h with h1 h2
  exact absurd h1 (by decide)

/-- C3: for a command whose source file exists (Active state), `delete(name)`
followed by `restore(name)` returns the command to an Active, buildable
state: the restore succeeds, the stored source content is byte-for-byte the
content before the delete, the binary is rebuilt (given the compiler
succeeds on that content, as it did when the command was Active), and the
soft-deleted, extensionless file is gone. -/
theorem c3_delete_restore_roundtrip (fs : FS) (name : List Char) (src bin : String)
    (compile : String → Option String)
    (hsrc : fsLookup fs (srcPath name) = some src)
    (hcompile : compile src = some bin) :
    ∃ fs2, restoreCommand compile (deleteCommand fs name) name = some fs2
      ∧ fsLookup fs2 (srcPath name) = some src
      ∧ fsLookup fs2 (binPath name) = some bin
      ∧ fsLookup fs2 (srcPathSansExt name) = none := by
  have hne1 : srcPathSansExt name ≠ binPath name :=
    fun h => binPath_ne_sansExt name name h.symm
  have hne2 : srcPath name ≠ srcPathSansExt name := srcPath_ne_sansExt name
  have hne3 : srcPath name ≠ binPath name :=
    fun h => binPath_ne_srcPath name name h.symm
  have hdel : deleteCommand fs name
      = fsRemove (fsWrite (fsRemove fs (srcPath name)) (srcPathSansExt name) src)
          (binPath name) := by
    rw [deleteCommand, fsRename, hsrc]
  have hlookdel : fsLookup (deleteCommand fs name) (srcPathSansExt name) = some src := by
    rw [hdel, fsLookup_fsRemove, if_neg hne1, fsLookup_fsWrite, if_pos rfl]
  have hres : restoreCommand compile (deleteCommand fs name) name
      = some (fsWrite (fsWrite (fsRemove (deleteCommand fs name) (srcPathSansExt name))
          (srcPath name) src) (binPath name) bin) := by
    simp only [restoreCommand, fsRename, hlookdel, hcompile]
  refine ⟨_, hres, ?_, ?_, ?_⟩
  · rw [fsLookup_fsWrite, if_neg hne3, fsLookup_fsWrite, if_pos rfl]
  · rw [fsLookup_fsWrite, if_pos rfl]
  · rw [fsLookup_fsWrite, if_neg hne1, fsLookup_fsWrite,
      if_neg (fun h => hne2 h.symm), fsLookup_fsRemove, if_pos rfl]

theorem c3_witness :
    ∃ fs2, restoreCommand
        (fun s => if s = "package main" then some "BIN" else none)
        (deleteCommand [(srcPath "foo".toList, "package main")] "foo".toList) "foo".toList
        = some fs2
      ∧ fsLookup fs2 (srcPath "foo".toList) = some "package main"
      ∧ fsLookup fs2 (binPath "foo".toList) = some "BIN"
      ∧ fsLookup fs2 (srcPathSansExt "foo".toList) = none :=
  c3_delete_restore_roundtrip [(srcPath "foo".toList, "package main")] "foo".toList
    "package main" "BIN" (fun s => if s = "package main" then some "BIN" else none)
    (by decide) (by decide)

theorem goExt_decomp (e : List Char) (h : (".go".toList).isSuffixOf e = true) :
    e = e.take (e.length - 3) ++ ".go".toList := by
  rw [List.isSuffixOf_iff_suffix] at h
  obtain ⟨t, ht⟩ := h
  have h3 : (".go".toList).length = 3 := rfl
  rw [← ht, List.length_append, h3]
  have hlen : t.length + 3 - 3 = t.length := by omega
  rw [hlen, List.take_left]

/-- C8: `export` of an Active command emits a shebang-prefixed copy of its
(shebang-stripped) source to the output stream and then performs the delete
transition: afterwards the name appears in the listing only in its
soft-deleted `(requires --restore)` form, and no binary is present. -/
theorem c8_export_then_soft_deleted (argv0 : String) (fs : FS) (name : List Char)
    (src : String)
    (hsrc : fsLookup fs (srcPath name) = some src)
    (hname : (".go".toList).isSuffixOf name = false) :
    exportCommand argv0 fs name
        = some ((("#!/usr/bin/env -S " ++ argv0 ++ "\n").toList) ++ readSourceFile src.toList,
            deleteCommand fs name)
      ∧ (name, true) ∈ listingRows (deleteCommand fs name)
      ∧ (name, false) ∉ listingRows (deleteCommand fs name)
      ∧ fsLookup (deleteCommand fs name) (binPath name) = none
      ∧ fsLookup (deleteCommand fs name) (srcPath name) = none := by
  have hne1 : srcPathSansExt name ≠ binPath name :=
    fun h => binPath_ne_sansExt name name h.symm
  have hne2 : srcPath name ≠ srcPathSansExt name := srcPath_ne_sansExt name
  have hdel : deleteCommand fs name
      = fsRemove (fsWrite (fsRemove fs (srcPath name)) (srcPathSansExt name) src)
          (binPath name) := by
    rw [deleteCommand, fsRename, hsrc]
  have hsnp : srcPathSansExt name ∈ fsKeys (deleteCommand fs name) := by
    rw [hdel, mem_fsKeys_fsRemove, mem_fsKeys_fsWrite]
    exact ⟨Or.inl rfl, hne1⟩
  have hsp : srcPath name ∉ fsKeys (deleteCommand fs name) := by
    rw [hdel, mem_fsKeys_fsRemove, mem_fsKeys_fsWrite]
    rintro ⟨h1 | ⟨h1, h2⟩, h3⟩
    · exact hne2 h1
    · rw [mem_fsKeys_fsRemove] at h1
      exact h1.2 rfl
  refine ⟨by simp only [exportCommand, hsrc], ?_, ?_, ?_, ?_⟩
  · rw [listingRows, List.mem_map]
    refine ⟨name, ?_, ?_⟩
    · rw [mem_srcEntries]
      exact hsnp
    · rw [if_neg (by rw [hname]; simp)]
  · rw [listingRows, List.mem_map]
    rintro ⟨e, he, hrow⟩
    by_cases hg : (".go".toList).isSuffixOf e = true
    · rw [if_pos hg] at hrow
      have h1 : e.take (e.length - 3) = name := congrArg Prod.fst hrow
      have h2 : e = name ++ ".go".toList := by
        rw [← h1]
        exact goExt_decomp e hg
      rw [mem_srcEntries, h2] at he
      rw [← List.append_assoc] at he
      exact hsp he
    · rw [if_neg hg] at hrow
      have := congrArg Prod.snd hrow
      simp at this
  · rw [hdel, fsLookup_fsRemove, if_pos rfl]
  · rw [hdel, fsLookup_fsRemove, if_neg (fun h => binPath_ne_srcPath name name h.symm),
      fsLookup_fsWrite, if_neg hne2, fsLookup_fsRemove, if_pos rfl]

theorem c8_witness :
    exportCommand "goscript" [(srcPath "foo".toList, "#!/usr/bin/env -S goscript\nv()\n"),
        (binPath "foo".toList, "BIN")] "foo".toList
        = some ((("#!/usr/bin/env -S " ++ "goscript" ++ "\n").toList)
              ++ readSourceFile ("#!/usr/bin/env -S goscript\nv()\n").toList,
            deleteCommand [(srcPath "foo".toList, "#!/usr/bin/env -S goscript\nv()\n"),
              (binPath "foo".toList, "BIN")] "foo".toList)
      ∧ ("foo".toList, true) ∈ listingRows
          (deleteCommand [(srcPath "foo".toList, "#!/usr/bin/env -S goscript\nv()\n"),
            (binPath "foo".toList, "BIN")] "foo".toList)
      ∧ ("foo".toList, false) ∉ listingRows
          (deleteCommand [(srcPath "foo".toList, "#!/usr/bin/env -S goscript\nv()\n"),
            (binPath "foo".toList, "BIN")] "foo".toList)
      ∧ fsLookup (deleteCommand [(srcPath "foo".toList, "#!/usr/bin/env -S goscript\nv()\n"),
            (binPath "foo".toList, "BIN")] "foo".toList) (binPath "foo".toList) = none
      ∧ fsLookup (deleteCommand [(srcPath "foo".toList, "#!/usr/bin/env -S goscript\nv()\n"),
            (binPath "foo".toList, "BIN")] "foo".toList) (srcPath "foo".toList) = none :=
  c8_export_then_soft_deleted "goscript"
    [(srcPath "foo".toList, "#!/usr/bin/env -S goscript\nv()\n"),
      (binPath "foo".toList, "BIN")]
    "foo".toList "#!/usr/bin/env -S goscript\nv()\n" (by decide) (by decide)

/-! ## Build Orchestrator (src/main.go:122-155, 331-352) -/

/-- One scanning pass of the Go regular expression `go get (.+)` applied by
`FindAllSubmatch` to the compiler diagnostic.  The fuel argument only makes
the recursion structural; `input.length` fuel always suffices.  At each
position, when the literal `"go get "` follows and at least one non-newline
character comes after it, that maximal non-newline run is the captured
package text and scanning resumes behind it; otherwise scanning advances
one character. -/
def ggScan : Nat → List Char → List (List Char)
  | 0, _ => []
  | _ + 1, [] => []
  | fuel + 1, c :: rest =>
    if ("go get ".toList).isPrefixOf (c :: rest) then
      let after := rest.drop 6
      let cap := after.takeWhile (fun x => x ≠ '\n')
      if cap = [] then ggScan fuel rest
      else cap :: ggScan fuel (after.drop cap.length)
    else ggScan fuel rest

/-- Captured missing-package texts of a diagnostic, trimmed as in the loop
at src/main.go:340-343 before each `goGet` call. -/
def pkgsOf (diag : String) : List String :=
  (ggScan diag.toList.length diag.toList).map (fun cs => String.mk (trimSpace cs))

/-- Number of `goGet` invocations the loop at src/main.go:340-343 performs:
one per captured package in order, except that a failing fetch makes
`check(err, 2, …)` inside `goGet` (src/main.go:137) exit the process, so no
later package is fetched. -/
def fetchAttempts (fetch : String → Bool) : List String → Nat
  | [] => 0
  | p :: ps => if fetch p then fetchAttempts fetch ps + 1 else 1

inductive StepRes where
  | success
  | hardFail
  | exitFetch
  | retry
  deriving DecidableEq

/-- One round of `compileBinary` (src/main.go:331-352), the external
`go build` abstracted as its result (`none` = binary built, `some diag` =
non-zero exit with combined output `diag`): a failure without the pattern is
final (`check` level 1, return false); with captured packages and every
fetch succeeding the function recurses into a retried build; a failing
fetch exits the process inside `goGet`. -/
def compileStep (buildRes : Option String) (fetch : String → Bool) : StepRes :=
  match buildRes with
  | none => .success
  | some diag =>
    let pkgs := pkgsOf diag
    if pkgs.isEmpty then .hardFail
    else if pkgs.all fetch then .retry else .exitFetch

inductive BuildRes where
  | ok
  | failed
  | exited
  | outOfFuel
  deriving DecidableEq

/-- The fetch-and-retry recursion of `compileBinary` (src/main.go:331-352),
with `builds n` the diagnostic of the n-th build attempt (`none` = success).
The Go recursion is unbounded when every retry keeps failing with fetchable
packages; the fuel bounds the model and `outOfFuel` marks such runs. -/
def compileBinary (builds : Nat → Option String) (fetch : String → Bool) :
    Nat → Nat → BuildRes
  | _, 0 => .outOfFuel
  | attempt, fuel + 1 =>
    match compileStep (builds attempt) fetch with
    | .success => .ok
    | .hardFail => .failed
    | .exitFetch => .exited
    | .retry => compileBinary builds fetch (attempt + 1) fuel

theorem fetchAttempts_le_length (fetch : String → Bool) :
    ∀ (l : List String), fetchAttempts fetch l ≤ l.length := by
  intro l
  induction l with
  | nil => simp [fetchAttempts]
  | cons p ps ih =>
    rw [fetchAttempts]
    by_cases hp : fetch p
    · rw [if_pos hp]
      simp only [List.length_cons]
      omega
    · rw [if_neg hp]
      simp only [List.length_cons]
      omega

/-- C1 as stated is false on the code: the loop fetches once per occurrence
of the pattern, not once per distinct path, so a diagnostic repeating one
path K=1 times over two occurrences triggers 2 > K fetch attempts. -/
theorem c1_counterexample :
    ¬(fetchAttempts (fun _ => true) (pkgsOf "go get foo\ngo get foo")
        ≤ (pkgsOf "go get foo\ngo get foo").dedup.length) := by
  decide

/-- C1 amended: the orchestrator performs at most one fetch attempt per
occurrence of the recognizable pattern — hence at most K when the K listed
paths are pairwise distinct, but more when a path repeats — and a fetch
failure exits the process immediately instead of retrying, so the
fetch-and-retry recursion cannot loop on a failing fetch. -/
theorem c1_fetch_per_occurrence_and_exit (diag : String) (fetch : String → Bool) :
    fetchAttempts fetch (pkgsOf diag) ≤ (pkgsOf diag).length
    ∧ ((pkgsOf diag).Nodup →
        fetchAttempts fetch (pkgsOf diag) ≤ (pkgsOf diag).dedup.length)
    ∧ ((∃ p ∈ pkgsOf diag, fetch p = false) →
        compileStep (some diag) fetch = StepRes.exitFetch) := by
  refine ⟨fetchAttempts_le_length fetch _, ?_, ?_⟩
  · intro hnd
    rw [List.dedup_eq_self.mpr hnd]
    exact fetchAttempts_le_length fetch _
  · rintro ⟨p, hp, hf⟩
    cases hl : pkgsOf diag with
    | nil => rw [hl] at hp; cases hp
    | cons a as =>
      have hallne : ((a :: as).all fetch) ≠ true := by
        intro hall
        rw [hl] at hp
        have hmem := List.all_eq_true.mp hall p hp
        rw [hf] at hmem
        exact Bool.false_ne_true hmem
      simp only [compileStep, hl, List.isEmpty_cons]
      rw [if_neg (by simp), if_neg hallne]

theorem c1_witness :
    fetchAttempts (fun s => s == "example.com/aaa") (pkgsOf "go get example.com/aaa\ngo get example.com/bbb")
        ≤ (pkgsOf "go get example.com/aaa\ngo get example.com/bbb").length
    ∧ compileStep (some "go get example.com/aaa\ngo get example.com/bbb")
        (fun s => s == "example.com/aaa") = StepRes.exitFetch :=
  ⟨(c1_fetch_per_occurrence_and_exit "go get example.com/aaa\ngo get example.com/bbb"
      (fun s => s == "example.com/aaa")).1,
   (c1_fetch_per_occurrence_and_exit "go get example.com/aaa\ngo get example.com/bbb"
      (fun s => s == "example.com/aaa")).2.2 ⟨"example.com/bbb", by decide, by decide⟩⟩

/-! ## Temporary-command lifecycle in main (src/main.go:749-798) -/

/-- Function `cleanTemporaryFiles` (src/main.go:414-425): remove the
generated source and binary, a missing file counting as already clean. -/
def cleanTemporaryFiles (fs : FS) (name : List Char) : FS :=
  fsRemove (fsRemove fs (srcPath name)) (binPath name)

/-- Environment of one temporary-name invocation: the build oracle, the
fetch oracle, whether an interrupt signal arrives during execution, whether
the child starts, and the file contents involved. -/
structure TempEnv where
  builds : Nat → Option String
  fetch : String → Bool
  interrupted : Bool
  execStartOk : Bool
  srcContent : String
  binContent : String

/-- The tail of `main` for a generated temporary name (src/main.go:749-798):
write the source, compile; on a final compile failure clean the temporary
files and exit 1; when the compile run exits inside `goGet` (the level-2
`check` on a failed fetch, src/main.go:137) the process terminates with no
cleanup; on success write the binary and then — whether an interrupt arrives
(the signal goroutine cleans and exits, src/main.go:769-775), the child
fails to start (src/main.go:783-789), or the run completes
(src/main.go:790-798) — clean the temporary files before exiting. -/
def mainTempRun (env : TempEnv) (fuel : Nat) (name : List Char) (fs0 : FS) : FS :=
  let fs1 := fsWrite fs0 (srcPath name) env.srcContent
  match compileBinary env.builds env.fetch 0 fuel with
  | .exited => fs1
  | .outOfFuel => fs1
  | .failed => cleanTemporaryFiles fs1 name
  | .ok =>
    let fs2 := fsWrite fs1 (binPath name) env.binContent
    if env.interrupted then cleanTemporaryFiles fs2 name
    else if env.execStartOk then cleanTemporaryFiles fs2 name
    else cleanTemporaryFiles fs2 name

/-- On every completion path that does not exit inside `goGet` (and is not
the fuel artifact), the temporary source and binary are both gone — this is
the extent to which the cleanup claim holds on the code. -/
theorem mainTempRun_cleans_elsewhere (env : TempEnv) (fuel : Nat) (name : List Char)
    (fs0 : FS)
    (h : compileBinary env.builds env.fetch 0 fuel ≠ BuildRes.exited)
    (h2 : compileBinary env.builds env.fetch 0 fuel ≠ BuildRes.outOfFuel) :
    fsLookup (mainTempRun env fuel name fs0) (srcPath name) = none
    ∧ fsLookup (mainTempRun env fuel name fs0) (binPath name) = none := by
  have hclean : ∀ fs : FS,
      fsLookup (cleanTemporaryFiles fs name) (srcPath name) = none
      ∧ fsLookup (cleanTemporaryFiles fs name) (binPath name) = none := by
    intro fs
    constructor
    · rw [cleanTemporaryFiles, fsLookup_fsRemove,
        if_neg (fun hh => binPath_ne_srcPath name name hh.symm),
        fsLookup_fsRemove, if_pos rfl]
    · rw [cleanTemporaryFiles, fsLookup_fsRemove, if_pos rfl]
  cases hres : compileBinary env.builds env.fetch 0 fuel with
  | exited => exact absurd hres h
  | outOfFuel => exact absurd hres h2
  | failed =>
    simp only [mainTempRun, hres]
    exact hclean _
  | ok =>
    simp only [mainTempRun, hres]
    by_cases hi : env.interrupted
    · simp only [hi, if_pos]
      exact hclean _
    · simp only [hi, Bool.false_eq_true, if_false]
      by_cases hs : env.execStartOk
      · simp only [hs, if_pos]
        exact hclean _
      · simp only [hs, Bool.false_eq_true, if_false]
        exact hclean _

/-- C2 evaluation at the failing input: a temporary invocation whose build
fails with a recognizable `go get <pkg>` line and whose fetch of that
package then fails exits through the level-2 `check` inside `goGet`
(src/main.go:137) before any `cleanTemporaryFiles` call is reached — the
generated source file is still on disk after the process ends, although the
claim requires it gone on every completion path. -/
theorem c2_leftover_source_on_failed_fetch :
    fsLookup
      (mainTempRun
        { builds := fun _ => some "no required module provides package foo: go get foo"
          fetch := fun _ => false
          interrupted := false
          execStartOk := true
          srcContent := "package main"
          binContent := "BIN" }
        5 "gocmd-1".toList []) (srcPath "gocmd-1".toList)
      = some "package main" := by
  decide

/-! ## check and formatCode (src/main.go:91-98, 433-463) -/

/-- Error-reporting state: `savedErrors` (which no statement of the program
ever prints), the messages printed to stderr so far, and whether `os.Exit`
was reached. -/
structure ErrState where
  saved : List String
  stderrOut : List String
  exited : Bool
  deriving DecidableEq

/-- Message layout of `check` (src/main.go:433-463): trimmed custom message,
newline, error text, newline — or the error text alone when no custom
message is given. -/
def checkMsg (customMsg msg : String) : String :=
  if customMsg ≠ "" then
    String.mk (trimSpace customMsg.toList) ++ "\n" ++ msg ++ "\n"
  else msg ++ "\n"

/-- Function `check` (src/main.go:433-463): level 0 records the message in
`savedErrors` to be printed at the end of the run, level 1 prints to stderr
and returns, level 2 prints to stderr and exits; the Bool reports whether an
error was present.  (Level 3 would panic; `formatCode` never uses it.) -/
def check (e : Option String) (errLevel : Nat) (customMsg : String) (st : ErrState) :
    Bool × ErrState :=
  match e with
  | none => (false, st)
  | some msg =>
    if errLevel = 0 then
      (true, { st with saved := st.saved ++ [checkMsg customMsg msg] })
    else if errLevel = 1 then
      (true, { st with stderrOut := st.stderrOut ++ [checkMsg customMsg msg] })
    else if errLevel = 2 then
      (true, { st with stderrOut := st.stderrOut ++ [checkMsg customMsg msg], exited := true })
    else (true, st)

/-- Function `formatCode` (src/main.go:91-98), the canonical formatter
`format.Source` abstracted as `fmtSource` (`Except.error msg` = failure):
on success the buffer is overwritten with the formatted code; on failure
`check(err, 1, "Code formatting failed")` runs and the buffer is kept. -/
def formatCode (fmtSource : String → Except String String) (buf : String)
    (st : ErrState) : String × ErrState :=
  match fmtSource buf with
  | .ok formatted => (formatted, st)
  | .error msg => (buf, (check (some msg) 1 "Code formatting failed" st).2)

/-- On every formatter failure the original rendering is kept and the run
continues — but the diagnostic is emitted to stderr at once by the level-1
`check`, and `savedErrors` (the only end-of-run store, itself never printed)
is untouched. -/
theorem formatCode_failure_immediate (fmtSource : String → Except String String)
    (buf msg : String) (st : ErrState) (h : fmtSource buf = .error msg) :
    formatCode fmtSource buf st
      = (buf, { st with
          stderrOut := st.stderrOut ++ ["Code formatting failed\n" ++ msg ++ "\n"] }) := by
  have hmsg : checkMsg "Code formatting failed" msg
      = "Code formatting failed\n" ++ msg ++ "\n" := by
    rw [checkMsg, if_pos (by decide)]
    rfl
  simp only [formatCode, h, check, hmsg]
  rfl

/-- C4 evaluation at a failing input: `formatCode` keeps the unformatted
buffer and does not exit (these parts of the claim hold), but the failure is
printed to stderr immediately through the level-1 `check` and nothing is
recorded for the end of the run — `savedErrors` stays empty and is in any
case printed nowhere — so the diagnostic is not deferred as the claim
states. -/
theorem c4_format_failure_printed_immediately :
    formatCode (fun _ => Except.error "expected declaration, found x")
        "func main() x" { saved := [], stderrOut := [], exited := false }
      = ("func main() x",
         { saved := [],
           stderrOut := ["Code formatting failed\nexpected declaration, found x\n"],
           exited := false }) := by
  decide

/-- C10: when a code fragment is read from a file, every line that begins with
`"#!"` is removed — at any position in the file, not only a leading shebang —
and every retained line is terminated with a newline: the result is exactly
the concatenation of the non-shebang lines, each followed by `'\n'`. -/
theorem c10_readSourceFile_strips_every_shebang_line (input : List Char) :
    readSourceFile input =
      (((scanLines input).filter (fun line => !(("#!".toList).isPrefixOf line))).map
        (fun line => line ++ ['\n'])).flatten := by
  simpa [readSourceFile] using
    foldl_skip_join (fun line => ("#!".toList).isPrefixOf line) (scanLines input) []

end Goscripts
